import Mathlib

/-!
Shallow embedding of the connect4 repository (board.py, engine.py).

The board is a 49-bit bitboard: 7 columns of 6 playable rows plus one
always-zero sentinel bit per column; bit index for column `c`, row `r`
is `7 * c + r`.  Python's unbounded nonnegative ints are modelled as `Nat`
(all masks stay below `2 ^ 49`, hashes below the XOR-closure of the table
values, and XOR never overflows, so no modular reduction is needed).
The module-level random Zobrist table `SQUARE_HASHES` / `SIDE_TO_MOVE_HASH`
is modelled as an explicit `Zobrist` parameter threaded through the
operations; theorems quantify over it, and concrete evaluations use the
injective table `demoZ`.

Mutation of the Python `Board` / `Engine` objects is modelled by explicit
state passing: each search function returns its score together with the
final engine and board states.
-/

def NUM_ROWS : Nat := 6
def NUM_COLS : Nat := 7
/-- Column stride: the 6 playable rows plus the sentinel bit. -/
def STRIDE : Nat := NUM_ROWS + 1

/-- Masks for each column, not including the sentinel bit. -/
def COLUMN_MASKS (c : Nat) : Nat := ((1 <<< (STRIDE - 1)) - 1) <<< (STRIDE * c)

/-- Mask for all the playable positions on the board
(`functools.reduce(lambda x, y: x | y, COLUMN_MASKS, 0)`). -/
def BOARD_MASK : Nat := (List.range NUM_COLS).foldl (fun x c => x ||| COLUMN_MASKS c) 0

/-- Masks for just the bottom bit of each column. -/
def BOTTOM_MASKS (c : Nat) : Nat := 1 <<< (STRIDE * c)

/-- Masks for the top playable bit of each column. -/
def TOP_MASKS (c : Nat) : Nat := 1 <<< (STRIDE * c + STRIDE - 2)

/-- The module-level random Zobrist data: `SQUARE_HASHES` (indexed by
move-parity 0/1 and square index 0..41) and `SIDE_TO_MOVE_HASH`. -/
structure Zobrist where
  square : Nat → Nat → Nat
  side : Nat

/-- Fuel-driven binary logarithm (structural recursion so that the kernel
can evaluate it; the fuel `n` always suffices for input `n`). -/
def log2fuel : Nat → Nat → Nat
  | 0, _ => 0
  | fuel + 1, n => if n < 2 then 0 else log2fuel fuel (n / 2) + 1

def ilog2 (n : Nat) : Nat := log2fuel n n

/-- The dict `MOVE_MASK_TO_SQUARE_IX` maps the single-bit move mask
`1 <<< (c * STRIDE + r)` (with `r < NUM_ROWS`) to the square index
`c * NUM_ROWS + r`.  Modelled as a function of the mask via its bit index;
it agrees with the dict on every key the source ever looks up (the source
raises `KeyError` on other values, which never happens on boards built by
`apply_move`). -/
def MOVE_MASK_TO_SQUARE_IX (m : Nat) : Nat :=
  (ilog2 m / STRIDE) * NUM_ROWS + ilog2 m % STRIDE

inductive BoardError where
  | illegalMove
deriving DecidableEq

structure Board where
  player_board : Nat
  all_pieces : Nat
  move_stack : List Nat
  hash : Nat
deriving DecidableEq

deriving instance DecidableEq for Except

/-- `Board.__init__`: empty board. -/
def Board.empty : Board := ⟨0, 0, [], 0⟩

/-- Column indices which are legal moves, i.e. whose top playable cell is
free.  Ascending order, like the Python list comprehension. -/
def Board.get_legal_move_cols (b : Board) : List Nat :=
  (List.range NUM_COLS).filter (fun c => TOP_MASKS c &&& b.all_pieces == 0)

/-- `Board.apply_move`.  The Python method mutates `self` after the two
validation checks; here the successful result is returned as a new board
(an `IllegalMoveException` raise corresponds to `.error .illegalMove`, with
the state untouched).  The Python `move_stack.append` / `pop` pair at the
end of the list is modelled by `cons` / head at the front. -/
def Board.apply_move (Z : Zobrist) (c : Int) (b : Board) : Except BoardError Board :=
  if c < 0 || (NUM_COLS : Int) ≤ c then .error .illegalMove
  else
    let cn := c.toNat
    let move_mask := (b.all_pieces + BOTTOM_MASKS cn) &&& COLUMN_MASKS cn
    if move_mask == 0 then .error .illegalMove
    else .ok
      { player_board := b.player_board ^^^ b.all_pieces
        all_pieces := b.all_pieces ^^^ move_mask
        move_stack := move_mask :: b.move_stack
        hash := b.hash ^^^ Z.side ^^^
          Z.square (b.move_stack.length &&& 1) (MOVE_MASK_TO_SQUARE_IX move_mask) }

/-- `Board.unapply_move`.  Python pops the stack first (raising `IndexError`
on an empty stack, a programming error that search code never triggers; we
model that unreached case as the identity), then XORs the mask out of
`all_pieces`, restores `player_board`, and reverses the hash update using
the post-pop stack length parity. -/
def Board.unapply_move (Z : Zobrist) (b : Board) : Board :=
  match b.move_stack with
  | [] => b
  | move_mask :: rest =>
    { player_board := b.player_board ^^^ (b.all_pieces ^^^ move_mask)
      all_pieces := b.all_pieces ^^^ move_mask
      move_stack := rest
      hash := b.hash ^^^ Z.side ^^^
        Z.square (rest.length &&& 1) (MOVE_MASK_TO_SQUARE_IX move_mask) }

/-- `Board.has_four`: shift-and-AND detection of four in a row in the four
directions (strides 1, STRIDE, STRIDE-1, STRIDE+1). -/
def Board.has_four (player_board : Nat) : Bool :=
  let m1 := player_board &&& (player_board >>> 1)
  if m1 &&& (m1 >>> 2) != 0 then true
  else
    let m2 := player_board &&& (player_board >>> STRIDE)
    if m2 &&& (m2 >>> (2 * STRIDE)) != 0 then true
    else
      let m3 := player_board &&& (player_board >>> (STRIDE - 1))
      if m3 &&& (m3 >>> (2 * (STRIDE - 1))) != 0 then true
      else
        let m4 := player_board &&& (player_board >>> (STRIDE + 1))
        if m4 &&& (m4 >>> (2 * (STRIDE + 1))) != 0 then true
        else false

/-- `Board.opp_board`. -/
def Board.opp_board (b : Board) : Nat := b.all_pieces ^^^ b.player_board

/-- `Board.last_move_won`. -/
def Board.last_move_won (b : Board) : Bool :=
  Board.has_four (b.all_pieces ^^^ b.player_board)

/-- `Board.is_full`. -/
def Board.is_full (b : Board) : Bool :=
  (b.all_pieces &&& BOARD_MASK) == BOARD_MASK

/-! ### engine.py -/

def WIN_EVAL : Int := 10000
def LOSS_EVAL : Int := -WIN_EVAL
def DRAW_EVAL : Int := 0

/-- Fuel-driven popcount (`int.bit_count`); the fuel `n` suffices for `n`. -/
def bit_countAux : Nat → Nat → Nat
  | 0, _ => 0
  | fuel + 1, n => if n = 0 then 0 else n % 2 + bit_countAux fuel (n / 2)

/-- Python `int.bit_count` on nonnegative ints. -/
def bit_count (n : Nat) : Nat := bit_countAux n n

/-- `center_weight`: 3 points per piece in the middle column, 2 per piece in
each adjacent column. -/
def center_weight (player_board : Nat) : Int :=
  3 * (bit_count (player_board &&& COLUMN_MASKS 3) : Int)
    + (2 * (bit_count (player_board &&& COLUMN_MASKS 2) : Int)
       + 2 * (bit_count (player_board &&& COLUMN_MASKS 4) : Int))

/-- `eval`: the leaf heuristic. -/
def eval (b : Board) : Int := center_weight b.player_board - center_weight b.opp_board

inductive TTEntryBound where
  | LOWER
  | UPPER
  | EXACT
deriving DecidableEq

structure TTEntry where
  depth : Nat
  score : Int
  bound : TTEntryBound
deriving DecidableEq

/-- Engine state: the transposition table (a Python dict keyed by the
64-bit position hash, modelled as a partial map) and the statistics. -/
structure Engine where
  transposition_table : Nat → Option TTEntry
  nodes_visited : Nat
  branches_pruned : Nat
  tt_hits : Nat

/-- `Engine.__init__`. -/
def Engine.new : Engine := ⟨fun _ => none, 0, 0, 0⟩

/-- `Engine.update_tt`: depth-preferred replacement, then bound
classification against the original alpha/beta window. -/
def Engine.update_tt (e : Engine) (h depth : Nat) (value orig_alpha orig_beta : Int) :
    Engine :=
  let keep : Bool :=
    match e.transposition_table h with
    | some entry => decide (depth < entry.depth)
    | none => false
  if keep then e
  else
    let bound :=
      if value ≤ orig_alpha then TTEntryBound.UPPER
      else if orig_beta ≤ value then TTEntryBound.LOWER
      else TTEntryBound.EXACT
    { e with transposition_table :=
        fun k => if k = h then some ⟨depth, value, bound⟩ else e.transposition_table k }

/-- The move loop of `Engine.negamax`: apply each candidate, bail out with
`WIN_EVAL - (depth - 1)` if it wins immediately, otherwise recurse, negate,
fold with `max`, and revert the move. -/
def negamaxGo (child : Engine → Board → Int × Engine × Board) (Z : Zobrist) (dp : Nat) :
    Engine → Board → List Nat → Int → Int × Engine × Board
  | e, b, [], value => (value, e, b)
  | e, b, c :: rest, value =>
    match Board.apply_move Z (c : Int) b with
    | .error _ => (value, e, b)
    | .ok b1 =>
      if b1.last_move_won then
        (WIN_EVAL - ((dp : Int) - 1), e, Board.unapply_move Z b1)
      else
        let r := child e b1
        negamaxGo child Z dp r.2.1 (Board.unapply_move Z r.2.2) rest (max value (-r.1))

/-- `Engine.negamax`: plain negamax search. -/
def Engine.negamax (Z : Zobrist) : Nat → Engine → Board → Int × Engine × Board
  | depth, e, b =>
    let e1 := { e with nodes_visited := e.nodes_visited + 1 }
    if b.last_move_won then (LOSS_EVAL + (depth : Int), e1, b)
    else if b.is_full then (DRAW_EVAL, e1, b)
    else
      match depth with
      | 0 => (eval b, e1, b)
      | d + 1 =>
        negamaxGo (fun e' b' => Engine.negamax Z d e' b') Z (d + 1) e1 b
          b.get_legal_move_cols LOSS_EVAL

/-- The move loop shared, line for line, by `Engine.negamax_alphabeta` and
`Engine.negamax_alphabeta_tt` (the two Python loops are textually
identical; the table interaction of the latter lives in the recursive
`child` and in the store performed by the caller after the loop).  On an
immediate win the remaining candidates are counted as pruned and the loop
bails out; otherwise it recurses with the negated swapped window, folds
with `max`, raises alpha, and stops on `alpha >= beta`. -/
def abGo (child : Int → Int → Engine → Board → Int × Engine × Board) (Z : Zobrist)
    (dp : Nat) (beta : Int) :
    Engine → Board → List Nat → Int → Int → Int × Engine × Board
  | e, b, [], value, _alpha => (value, e, b)
  | e, b, c :: rest, value, alpha =>
    match Board.apply_move Z (c : Int) b with
    | .error _ => (value, e, b)
    | .ok b1 =>
      if b1.last_move_won then
        let e' := { e with branches_pruned := e.branches_pruned + rest.length }
        (WIN_EVAL - ((dp : Int) - 1), e', Board.unapply_move Z b1)
      else
        let r := child (-beta) (-alpha) e b1
        let b2 := Board.unapply_move Z r.2.2
        let value' := max value (-r.1)
        let alpha' := max alpha value'
        if beta ≤ alpha' then
          let e' := { r.2.1 with branches_pruned := r.2.1.branches_pruned + rest.length }
          (value', e', b2)
        else
          abGo child Z dp beta r.2.1 b2 rest value' alpha'

/-- `Engine.negamax_alphabeta` (defaults `alpha = LOSS_EVAL`,
`beta = WIN_EVAL` are passed explicitly by callers). -/
def Engine.negamax_alphabeta (Z : Zobrist) :
    Nat → Int → Int → Engine → Board → Int × Engine × Board
  | depth, alpha, beta, e, b =>
    let e1 := { e with nodes_visited := e.nodes_visited + 1 }
    if b.last_move_won then (LOSS_EVAL + (depth : Int), e1, b)
    else if b.is_full then (DRAW_EVAL, e1, b)
    else
      match depth with
      | 0 => (eval b, e1, b)
      | d + 1 =>
        abGo (fun a' b' e' bd => Engine.negamax_alphabeta Z d a' b' e' bd) Z (d + 1)
          beta e1 b b.get_legal_move_cols alpha alpha

/-- `Engine.negamax_alphabeta_tt`.  Terminal returns store through
`update_tt`; at inner nodes the table is probed (an entry searched at
least as deep may return immediately when EXACT, or narrow the window,
possibly resolving a cutoff that is itself stored); the move loop is
`abGo`, and the loop's result is stored against the original window.  In
the source the immediate-win path stores and returns inside the loop and
the normal path stores after the loop; both store the final `value` with
`update_tt(board.hash, depth, value, orig_alpha, orig_beta)` on the
restored board, which is what `storeRun` does uniformly here. -/
def Engine.negamax_alphabeta_tt (Z : Zobrist) :
    Nat → Int → Int → Engine → Board → Int × Engine × Board
  | depth, alpha, beta, e, b =>
    let orig_alpha := alpha
    let orig_beta := beta
    let e1 := { e with nodes_visited := e.nodes_visited + 1 }
    if b.last_move_won then
      let value := LOSS_EVAL + (depth : Int)
      (value, e1.update_tt b.hash depth value orig_alpha orig_beta, b)
    else if b.is_full then
      (DRAW_EVAL, e1.update_tt b.hash depth DRAW_EVAL orig_alpha orig_beta, b)
    else
      match depth with
      | 0 =>
        (eval b, e1.update_tt b.hash 0 (eval b) orig_alpha orig_beta, b)
      | d + 1 =>
        let storeRun := fun (e2 : Engine) (alpha2 beta2 : Int) =>
          let r := abGo (fun a' b' e' bd => Engine.negamax_alphabeta_tt Z d a' b' e' bd)
            Z (d + 1) beta2 e2 b b.get_legal_move_cols alpha2 alpha2
          (r.1, (r.2.1).update_tt b.hash (d + 1) r.1 orig_alpha orig_beta, r.2.2)
        match e1.transposition_table b.hash with
        | none => storeRun e1 alpha beta
        | some tt_entry =>
          if d + 1 ≤ tt_entry.depth then
            let e2 := { e1 with tt_hits := e1.tt_hits + 1 }
            if tt_entry.bound = TTEntryBound.EXACT then
              (tt_entry.score, e2, b)
            else
              let alpha2 :=
                if tt_entry.bound = TTEntryBound.LOWER then max alpha tt_entry.score
                else alpha
              let beta2 :=
                if tt_entry.bound = TTEntryBound.UPPER then min beta tt_entry.score
                else beta
              if beta2 ≤ alpha2 then
                let score := if beta2 < orig_beta then beta2 else alpha2
                (score, e2.update_tt b.hash (d + 1) score orig_alpha orig_beta, b)
              else storeRun e2 alpha2 beta2
          else storeRun e1 alpha beta

/-! ### Reachability and a concrete Zobrist table -/

/-- Play a list of columns from a given board with `apply_move`; `none`
as soon as a move is illegal. -/
def playSeq (Z : Zobrist) : Board → List Int → Option Board
  | b, [] => some b
  | b, c :: rest =>
    match Board.apply_move Z c b with
    | .ok b' => playSeq Z b' rest
    | .error _ => none

/-- A board is reachable when some sequence of legal `apply_move` calls
produces it from the empty board. -/
def Reachable (Z : Zobrist) (b : Board) : Prop :=
  ∃ ms, playSeq Z Board.empty ms = some b

/-- A concrete, injective stand-in for the random Zobrist table: square
`(j, sq)` hashes to the single bit `2 ^ (42 * j + sq)` and the
side-to-move hash is `2 ^ 84`, so distinct positions get distinct hashes. -/
def demoZ : Zobrist := ⟨fun j sq => 1 <<< (42 * j + sq), 1 <<< 84⟩

/-! ### Derived notions used in the statements -/

/-- Per-key depth monotonicity between two engine states: every stored
entry stays present (possibly overwritten) with a depth at least as
large. -/
def ttDepthMono (e e' : Engine) : Prop :=
  ∀ k entry, e.transposition_table k = some entry →
    ∃ entry', e'.transposition_table k = some entry' ∧ entry.depth ≤ entry'.depth

/-- The specification predicate for `has_four`: the mask contains four
consecutive set cells in one of the four canonical orientations (vertical
within a column, horizontal within a row, or one of the two diagonals),
entirely within the 7x6 playable area. -/
def hasFourSpec (m : Nat) : Prop :=
  (∃ c < 7, ∃ r < 3, m.testBit (7 * c + r) = true
    ∧ m.testBit (7 * c + r + 1) = true
    ∧ m.testBit (7 * c + r + 2) = true
    ∧ m.testBit (7 * c + r + 3) = true)
  ∨ (∃ c < 4, ∃ r < 6, m.testBit (7 * c + r) = true
    ∧ m.testBit (7 * (c + 1) + r) = true
    ∧ m.testBit (7 * (c + 2) + r) = true
    ∧ m.testBit (7 * (c + 3) + r) = true)
  ∨ (∃ c < 4, ∃ r < 3, m.testBit (7 * c + r) = true
    ∧ m.testBit (7 * (c + 1) + (r + 1)) = true
    ∧ m.testBit (7 * (c + 2) + (r + 2)) = true
    ∧ m.testBit (7 * (c + 3) + (r + 3)) = true)
  ∨ (∃ c < 4, ∃ r < 3, m.testBit (7 * c + (r + 3)) = true
    ∧ m.testBit (7 * (c + 1) + (r + 2)) = true
    ∧ m.testBit (7 * (c + 2) + (r + 1)) = true
    ∧ m.testBit (7 * (c + 3) + r) = true)

/-- The bitboard of a position whose columns `c`, `c+1`, ..., `c+k-1`
hold contiguous stacks of heights `f c`, ..., `f (c+k-1)` (each column is
a `2^h - 1` block in its 7-bit field). -/
def colsFrom (f : Nat → Nat) : Nat → Nat → Nat
  | 0, _ => 0
  | k + 1, c => (2 ^ f c - 1) + 128 * colsFrom f k (c + 1)

/-- Square index of playable bit `i` (agrees with `MOVE_MASK_TO_SQUARE_IX`
on single-bit masks). -/
def sqIdx (i : Nat) : Nat := i / 7 * 6 + i % 7

def hashStep (Z : Zobrist) (j m i acc : Nat) : Nat :=
  (if m.testBit i then Z.square j (sqIdx i) else 0) ^^^ acc

/-- XOR of the parity-`j` square hashes of all playable bits set in `m`. -/
def maskHash (Z : Zobrist) (j m : Nat) : Nat :=
  (List.range 49).foldr (hashStep Z j m) 0

def countStep (m i acc : Nat) : Nat := (if m.testBit i then 1 else 0) + acc

/-- Number of bits of `m` set among positions `0..48`. -/
def countBits49 (m : Nat) : Nat := (List.range 49).foldr (countStep m) 0

/-- The value of the incremental Zobrist hash, expressed as a function of
the final `(player_board, all_pieces)` masks alone: the side-to-move hash
appears when the piece count is odd, the side-to-move's pieces were
placed at plies of parity `count % 2`, and the opponent's at the other
parity. -/
def hashOfMasks (Z : Zobrist) (p a : Nat) : Nat :=
  (if countBits49 a % 2 = 1 then Z.side else 0)
    ^^^ (maskHash Z (countBits49 a % 2) p
      ^^^ maskHash Z ((countBits49 a + 1) % 2) (a ^^^ p))

/-- The invariant holding of every board reachable by legal moves: the
occupancy is a contiguous column profile, the mover's mask is a subset of
the occupancy, the move stack length is the piece count, and the hash is
the mask-level Zobrist value. -/
def BoardInv (Z : Zobrist) (b : Board) : Prop :=
  ∃ f : Nat → Nat, (∀ j, f j ≤ 6)
    ∧ b.all_pieces = colsFrom f 7 0
    ∧ (∀ i, b.player_board.testBit i = true → b.all_pieces.testBit i = true)
    ∧ b.move_stack.length = countBits49 b.all_pieces
    ∧ b.hash = hashOfMasks Z b.player_board b.all_pieces

/-- The move list producing `c1Board`: a 38-move game filling columns 1-4
and most of columns 0, 5 and 6. -/
def c1Moves : List Int :=
  [1, 0, 0, 1, 0, 0, 1, 0, 4, 1, 4, 1, 1, 3, 3, 3, 3, 3, 3, 6, 6, 2, 6, 2,
   2, 2, 2, 5, 6, 5, 5, 4, 5, 4, 5, 4, 4, 2]

/-- A reachable 38-move position in which only columns 0, 5 and 6 are
still open: the side to move has two immediate vertical winning threats
(columns 5 and 6) and a quiet move at column 0 after which both opponent
replies still lose at once. -/
def c1Board : Board := (playSeq demoZ Board.empty c1Moves).getD Board.empty

/-- A reachable position where the side to move wins at once by dropping
into column 0 (vertical four). -/
def winBoard : Board :=
  (playSeq demoZ Board.empty [0, 1, 0, 1, 0, 1]).getD Board.empty

/-- A reachable position in which the opponent's last move completed a
vertical four: the side to move has already lost. -/
def lossBoard : Board :=
  (playSeq demoZ Board.empty [0, 1, 0, 1, 0, 1, 2, 1]).getD Board.empty

/-! ### Basic facts about the constants and bit operations -/

lemma STRIDE_eq : STRIDE = 7 := rfl

lemma COLUMN_MASKS_eq (c : Nat) : COLUMN_MASKS c = 63 * 2 ^ (7 * c) := by
  simp [COLUMN_MASKS, Nat.shiftLeft_eq, STRIDE, NUM_ROWS]

lemma BOTTOM_MASKS_eq (c : Nat) : BOTTOM_MASKS c = 2 ^ (7 * c) := by
  simp [BOTTOM_MASKS, Nat.shiftLeft_eq, STRIDE, NUM_ROWS]

lemma TOP_MASKS_eq (c : Nat) : TOP_MASKS c = 2 ^ (7 * c + 5) := by
  simp [TOP_MASKS, Nat.shiftLeft_eq, STRIDE, NUM_ROWS]

lemma Nat.ne_zero_iff_exists_testBit (n : Nat) : n ≠ 0 ↔ ∃ i, n.testBit i = true := by
  constructor
  · intro h
    by_contra hc
    push_neg at hc
    exact h (Nat.eq_of_testBit_eq fun i => by
      simpa [Nat.zero_testBit] using Bool.eq_false_iff.mpr (hc i))
  · rintro ⟨i, hi⟩ rfl
    simp [Nat.zero_testBit] at hi

lemma shiftLeft_eq_zero_iff (x s : Nat) : x <<< s = 0 ↔ x = 0 := by
  rw [Nat.shiftLeft_eq]
  constructor
  · intro h
    rcases Nat.mul_eq_zero.mp h with h | h
    · exact h
    · exact absurd h (Nat.pos_iff_ne_zero.mp (Nat.pos_pow_of_pos s (by norm_num)))
  · rintro rfl; simp

lemma land_column_mask (x c : Nat) :
    x &&& COLUMN_MASKS c = ((x >>> (7 * c)) % 64) <<< (7 * c) := by
  apply Nat.eq_of_testBit_eq
  intro i
  rw [COLUMN_MASKS_eq, show (63 : Nat) * 2 ^ (7 * c) = 63 <<< (7 * c) from
      (Nat.shiftLeft_eq 63 (7 * c)).symm]
  rw [Nat.testBit_land, Nat.testBit_shiftLeft, Nat.testBit_shiftLeft,
    show (64 : Nat) = 2 ^ 6 by norm_num, Nat.testBit_mod_two_pow, Nat.testBit_shiftRight]
  rcases Nat.lt_or_ge i (7 * c) with hlt | hge
  · simp [Nat.not_le.mpr hlt]
  · rw [decide_eq_true hge, Bool.true_and, Bool.true_and,
      show (63 : Nat) = 2 ^ 6 - 1 by norm_num, Nat.testBit_two_pow_sub_one,
      show 7 * c + (i - 7 * c) = i from by omega]
    exact Bool.and_comm (x.testBit i) (decide (i - 7 * c < 6))

lemma shiftRight_add_pow (x s : Nat) : (x + 2 ^ s) >>> s = x >>> s + 1 := by
  rw [Nat.shiftRight_eq_div_pow, Nat.shiftRight_eq_div_pow]
  exact Nat.add_div_right x (Nat.pos_pow_of_pos s (by norm_num))

/-- The move mask computed by `apply_move`, in arithmetic form. -/
lemma move_mask_eq (b : Board) (c : Nat) :
    (b.all_pieces + BOTTOM_MASKS c) &&& COLUMN_MASKS c
      = ((b.all_pieces >>> (7 * c) + 1) % 64) <<< (7 * c) := by
  rw [BOTTOM_MASKS_eq, land_column_mask, shiftRight_add_pow]

lemma mod64_eq_63_iff (y : Nat) :
    y % 64 = 63 ↔ ∀ r, r < 6 → y.testBit r = true := by
  have hchar : ∀ z, z < 64 → (z = 63 ↔ ∀ r, r < 6 → z.testBit r = true) := by decide
  have hy : y % 64 < 64 := Nat.mod_lt _ (by norm_num)
  rw [hchar (y % 64) hy]
  constructor
  · intro h r hr
    have := h r hr
    rwa [show (64 : Nat) = 2 ^ 6 by norm_num, Nat.testBit_mod_two_pow,
      decide_eq_true hr, Bool.true_and] at this
  · intro h r hr
    rw [show (64 : Nat) = 2 ^ 6 by norm_num, Nat.testBit_mod_two_pow,
      decide_eq_true hr, Bool.true_and]
    exact h r hr

/-- The carry trick produces a zero mask exactly when all six playable
cells of the column are occupied (true for arbitrary bit patterns, not
just reachable boards). -/
lemma move_mask_zero_iff (b : Board) (c : Nat) :
    ((b.all_pieces + BOTTOM_MASKS c) &&& COLUMN_MASKS c = 0
      ↔ ∀ r, r < 6 → b.all_pieces.testBit (7 * c + r) = true) := by
  rw [move_mask_eq, shiftLeft_eq_zero_iff]
  have hmod : (b.all_pieces >>> (7 * c) + 1) % 64 = 0
      ↔ b.all_pieces >>> (7 * c) % 64 = 63 := by omega
  rw [hmod, mod64_eq_63_iff]
  constructor
  · intro h r hr
    have := h r hr
    rwa [Nat.testBit_shiftRight] at this
  · intro h r hr
    rw [Nat.testBit_shiftRight]
    exact h r hr

/-! ### XOR helpers -/

lemma xor_left_comm (a b c : Nat) : a ^^^ (b ^^^ c) = b ^^^ (a ^^^ c) := by
  rw [← Nat.xor_assoc, Nat.xor_comm a b, Nat.xor_assoc]

/-! ### C2: unapply_move is the exact inverse of a successful apply_move -/

/-- Helper: a successful `apply_move` is undone exactly by `unapply_move`. -/
lemma unapply_of_apply_ok (Z : Zobrist) {c : Int} {b b' : Board}
    (h : Board.apply_move Z c b = Except.ok b') :
    Board.unapply_move Z b' = b := by
  simp only [Board.apply_move] at h
  split at h
  · exact absurd h (by simp)
  · split at h
    · exact absurd h (by simp)
    · cases b with
      | mk p a s hs =>
        injection h with h
        subst h
        simp [Board.unapply_move, Board.mk.injEq, Nat.xor_assoc, Nat.xor_comm,
          xor_left_comm]

/-- **C2.** For every board `b` and every column on which `apply_move`
succeeds (in particular every legal column of a reachable board), applying
and then unapplying restores `player_board`, `all_pieces`, `hash` and the
move stack exactly: `unapply_move` is the exact algebraic inverse of
`apply_move`. -/
theorem C2_unapply_inverts_apply (Z : Zobrist) (c : Int) (b b' : Board)
    (h : Board.apply_move Z c b = Except.ok b') :
    Board.unapply_move Z b' = b :=
  unapply_of_apply_ok Z h

/-- Witness for C2 at a concrete input: dropping into column 3 of the empty
board and unapplying restores the empty board. -/
theorem C2_unapply_inverts_apply_witness :
    Board.unapply_move demoZ
      { player_board := 0, all_pieces := 2097152, move_stack := [2097152],
        hash := (1 <<< 84) ^^^ (1 <<< 18) } = Board.empty :=
  C2_unapply_inverts_apply demoZ 3 Board.empty _ (by decide)

/-! ### C7: apply_move fails exactly on out-of-range or full columns -/

/-- **C7.** `apply_move c` fails with `IllegalMove` exactly when `c` lies
outside `[0, 7)` or all six playable cells of column `c` are already
occupied.  This holds for every board state (reachability is not needed).
Failure produces no successor board at all, so no mutation occurs — in the
source both raises happen before any assignment to `self`. -/
theorem C7_illegal_move_iff (Z : Zobrist) (c : Int) (b : Board) :
    Board.apply_move Z c b = Except.error BoardError.illegalMove
      ↔ (c < 0 ∨ (7 : Int) ≤ c
          ∨ ∀ r, r < 6 → b.all_pieces.testBit (7 * c.toNat + r) = true) := by
  simp only [Board.apply_move]
  split
  case isTrue hcond =>
    simp only [NUM_COLS, Nat.cast_ofNat, Bool.or_eq_true, decide_eq_true_eq] at hcond
    exact ⟨fun _ => by tauto, fun _ => rfl⟩
  case isFalse hcond =>
    simp only [NUM_COLS, Nat.cast_ofNat, Bool.or_eq_true, decide_eq_true_eq] at hcond
    push_neg at hcond
    split
    case isTrue hmm =>
      rw [beq_iff_eq] at hmm
      exact ⟨fun _ => Or.inr (Or.inr ((move_mask_zero_iff b c.toNat).mp hmm)),
        fun _ => rfl⟩
    case isFalse hmm =>
      rw [beq_iff_eq] at hmm
      constructor
      · intro h; exact absurd h (by simp)
      · intro h
        rcases h with h | h | h
        · exact absurd h (not_lt.mpr hcond.1)
        · exact absurd h (not_le.mpr hcond.2)
        · exact absurd ((move_mask_zero_iff b c.toNat).mpr h) hmm

/-! ### C9: every search returns the board to its pre-call state -/

lemma negamaxGo_board (child : Engine → Board → Int × Engine × Board) (Z : Zobrist)
    (dp : Nat) (hchild : ∀ e b, (child e b).2.2 = b) :
    ∀ ms e b value, (negamaxGo child Z dp e b ms value).2.2 = b := by
  intro ms
  induction ms with
  | nil => intro e b value; rfl
  | cons c rest ih =>
    intro e b value
    simp only [negamaxGo]
    cases happly : Board.apply_move Z (c : Int) b with
    | error err => rfl
    | ok b1 =>
      by_cases hwin : b1.last_move_won = true
      · simp only [hwin, if_pos]
        exact unapply_of_apply_ok Z happly
      · simp only [hwin, if_neg, Bool.false_eq_true, not_false_eq_true]
        rw [ih]
        rw [hchild e b1]
        exact unapply_of_apply_ok Z happly

lemma negamax_board (Z : Zobrist) (depth : Nat) :
    ∀ e b, (Engine.negamax Z depth e b).2.2 = b := by
  induction depth with
  | zero =>
    intro e b
    simp only [Engine.negamax]
    split
    · rfl
    · split
      · rfl
      · rfl
  | succ d ih =>
    intro e b
    simp only [Engine.negamax]
    split
    · rfl
    · split
      · rfl
      · exact negamaxGo_board _ Z (d + 1) (fun e' b' => ih e' b') _ _ b LOSS_EVAL

lemma abGo_board (child : Int → Int → Engine → Board → Int × Engine × Board)
    (Z : Zobrist) (dp : Nat) (beta : Int)
    (hchild : ∀ a' b' e bd, (child a' b' e bd).2.2 = bd) :
    ∀ ms e b value alpha, (abGo child Z dp beta e b ms value alpha).2.2 = b := by
  intro ms
  induction ms with
  | nil => intro e b value alpha; rfl
  | cons c rest ih =>
    intro e b value alpha
    simp only [abGo]
    cases happly : Board.apply_move Z (c : Int) b with
    | error err => rfl
    | ok b1 =>
      by_cases hwin : b1.last_move_won = true
      · simp only [hwin, if_pos]
        exact unapply_of_apply_ok Z happly
      · simp only [hwin, if_neg, Bool.false_eq_true, not_false_eq_true]
        split
        · rw [hchild _ _ e b1]
          exact unapply_of_apply_ok Z happly
        · rw [ih]
          rw [hchild _ _ e b1]
          exact unapply_of_apply_ok Z happly

lemma negamax_alphabeta_board (Z : Zobrist) (depth : Nat) :
    ∀ alpha beta e b, (Engine.negamax_alphabeta Z depth alpha beta e b).2.2 = b := by
  induction depth with
  | zero =>
    intro alpha beta e b
    simp only [Engine.negamax_alphabeta]
    split
    · rfl
    · split
      · rfl
      · rfl
  | succ d ih =>
    intro alpha beta e b
    simp only [Engine.negamax_alphabeta]
    split
    · rfl
    · split
      · rfl
      · exact abGo_board _ Z (d + 1) beta (fun a' b' e' bd => ih a' b' e' bd) _ _ b
          alpha alpha

lemma negamax_alphabeta_tt_board (Z : Zobrist) (depth : Nat) :
    ∀ alpha beta e b, (Engine.negamax_alphabeta_tt Z depth alpha beta e b).2.2 = b := by
  induction depth with
  | zero =>
    intro alpha beta e b
    simp only [Engine.negamax_alphabeta_tt]
    split
    · rfl
    · split
      · rfl
      · rfl
  | succ d ih =>
    intro alpha beta e b
    have hab : ∀ (beta2 : Int) (e2 : Engine) (value alpha2 : Int),
        (abGo (fun a' b' e' bd => Engine.negamax_alphabeta_tt Z d a' b' e' bd) Z (d + 1)
          beta2 e2 b b.get_legal_move_cols value alpha2).2.2 = b :=
      fun beta2 e2 v a2 =>
        abGo_board _ Z (d + 1) beta2 (fun a' b' e' bd => ih a' b' e' bd) _ e2 b v a2
    simp only [Engine.negamax_alphabeta_tt]
    split
    · rfl
    · split
      · rfl
      · split
        · exact hab _ _ _ _
        · split_ifs <;> first | rfl | exact hab _ _ _ _

/-- **C9.** Every call to `negamax`, `negamax_alphabeta` or
`negamax_alphabeta_tt` returns the `Board` to its pre-call state
(`player_board`, `all_pieces`, `hash` and the move stack all equal their
entry values) on every return path, including immediate-win returns,
alpha-beta cutoffs and transposition-table cutoffs: in the state-passing
embedding the final board component of each search equals the input
board. -/
theorem C9_search_preserves_board (Z : Zobrist) (depth : Nat) (alpha beta : Int)
    (e : Engine) (b : Board) :
    (Engine.negamax Z depth e b).2.2 = b
      ∧ (Engine.negamax_alphabeta Z depth alpha beta e b).2.2 = b
      ∧ (Engine.negamax_alphabeta_tt Z depth alpha beta e b).2.2 = b :=
  ⟨negamax_board Z depth e b, negamax_alphabeta_board Z depth alpha beta e b,
    negamax_alphabeta_tt_board Z depth alpha beta e b⟩

/-! ### C8: the transposition-table replacement policy is depth-preferred -/

lemma ttDepthMono_refl (e : Engine) : ttDepthMono e e :=
  fun _ entry h => ⟨entry, h, le_refl _⟩

lemma ttDepthMono_trans {e1 e2 e3 : Engine} (h12 : ttDepthMono e1 e2)
    (h23 : ttDepthMono e2 e3) : ttDepthMono e1 e3 := by
  intro k entry h
  obtain ⟨entry2, h2, hd2⟩ := h12 k entry h
  obtain ⟨entry3, h3, hd3⟩ := h23 k entry2 h2
  exact ⟨entry3, h3, le_trans hd2 hd3⟩

lemma ttDepthMono_of_table_eq {e e' : Engine}
    (h : e'.transposition_table = e.transposition_table) : ttDepthMono e e' :=
  fun k entry hk => ⟨entry, by rw [h]; exact hk, le_refl _⟩

lemma update_tt_mono (e : Engine) (h depth : Nat) (v oa ob : Int) :
    ttDepthMono e (e.update_tt h depth v oa ob) := by
  intro k entry hk
  simp only [Engine.update_tt]
  split
  · exact ⟨entry, hk, le_refl _⟩
  case isFalse hkeep =>
    by_cases hkh : k = h
    · subst hkh
      refine ⟨⟨depth, v,
        if v ≤ oa then TTEntryBound.UPPER
        else if ob ≤ v then TTEntryBound.LOWER else TTEntryBound.EXACT⟩, by simp, ?_⟩
      rw [hk] at hkeep
      simp only [decide_eq_true_eq] at hkeep
      show entry.depth ≤ depth
      omega
    · exact ⟨entry, by simp [hkh]; exact hk, le_refl _⟩

lemma abGo_tt_mono (child : Int → Int → Engine → Board → Int × Engine × Board)
    (Z : Zobrist) (dp : Nat) (beta : Int)
    (hchild : ∀ a' b' e bd, ttDepthMono e (child a' b' e bd).2.1) :
    ∀ ms e b value alpha, ttDepthMono e (abGo child Z dp beta e b ms value alpha).2.1 := by
  intro ms
  induction ms with
  | nil => intro e b value alpha; exact ttDepthMono_refl e
  | cons c rest ih =>
    intro e b value alpha
    simp only [abGo]
    cases happly : Board.apply_move Z (c : Int) b with
    | error err => exact ttDepthMono_refl e
    | ok b1 =>
      by_cases hwin : b1.last_move_won = true
      · simp only [hwin, if_pos]
        exact ttDepthMono_of_table_eq rfl
      · simp only [hwin, if_neg, Bool.false_eq_true, not_false_eq_true]
        split
        · exact ttDepthMono_trans (hchild _ _ e b1) (ttDepthMono_of_table_eq rfl)
        · exact ttDepthMono_trans (hchild _ _ e b1) (ih _ _ _ _)

lemma negamax_alphabeta_tt_mono (Z : Zobrist) (depth : Nat) :
    ∀ alpha beta e b,
      ttDepthMono e (Engine.negamax_alphabeta_tt Z depth alpha beta e b).2.1 := by
  induction depth with
  | zero =>
    intro alpha beta e b
    simp only [Engine.negamax_alphabeta_tt]
    split
    · refine ttDepthMono_trans ?_ (update_tt_mono _ _ _ _ _ _)
      exact ttDepthMono_of_table_eq rfl
    · split
      · refine ttDepthMono_trans ?_ (update_tt_mono _ _ _ _ _ _)
        exact ttDepthMono_of_table_eq rfl
      · refine ttDepthMono_trans ?_ (update_tt_mono _ _ _ _ _ _)
        exact ttDepthMono_of_table_eq rfl
  | succ d ih =>
    intro alpha beta e b
    have hrun : ∀ (beta2 : Int) (e2 : Engine) (value alpha2 : Int),
        ttDepthMono e2
          (abGo (fun a' b' e' bd => Engine.negamax_alphabeta_tt Z d a' b' e' bd) Z (d + 1)
            beta2 e2 b b.get_legal_move_cols value alpha2).2.1 :=
      fun beta2 e2 v a2 =>
        abGo_tt_mono _ Z (d + 1) beta2 (fun a' b' e' bd => ih a' b' e' bd) _ e2 b v a2
    simp only [Engine.negamax_alphabeta_tt]
    split
    · refine ttDepthMono_trans ?_ (update_tt_mono _ _ _ _ _ _)
      exact ttDepthMono_of_table_eq rfl
    · split
      · refine ttDepthMono_trans ?_ (update_tt_mono _ _ _ _ _ _)
        exact ttDepthMono_of_table_eq rfl
      · split
        · refine ttDepthMono_trans ?_ (update_tt_mono _ _ _ _ _ _)
          refine ttDepthMono_trans ?_ (hrun _ _ _ _)
          exact ttDepthMono_of_table_eq rfl
        · split_ifs <;>
            first
              | exact ttDepthMono_of_table_eq rfl
              | (refine ttDepthMono_trans ?_ (update_tt_mono _ _ _ _ _ _);
                  first
                    | exact ttDepthMono_of_table_eq rfl
                    | (refine ttDepthMono_trans ?_ (hrun _ _ _ _);
                        exact ttDepthMono_of_table_eq rfl))

/-- **C8.** The transposition-table replacement policy is depth-preferred:
(1) `update_tt` changes the entry stored for its hash key only when the new
result's depth is at least the stored entry's depth, and (2) consequently,
along any `negamax_alphabeta_tt` call (the only code path that writes to
the table over the lifetime of an `Engine` instance), the depth recorded
for any key never decreases. -/
theorem C8_tt_depth_preferred :
    (∀ (e : Engine) (h depth : Nat) (v oa ob : Int) (entry : TTEntry),
        e.transposition_table h = some entry →
        (e.update_tt h depth v oa ob).transposition_table h ≠ some entry →
        entry.depth ≤ depth)
    ∧ (∀ (Z : Zobrist) (depth : Nat) (alpha beta : Int) (e : Engine) (b : Board)
        (k : Nat) (entry : TTEntry),
        e.transposition_table k = some entry →
        ∃ entry',
          (Engine.negamax_alphabeta_tt Z depth alpha beta e b).2.1.transposition_table k
              = some entry'
            ∧ entry.depth ≤ entry'.depth) := by
  constructor
  · intro e h depth v oa ob entry hk hchanged
    have := update_tt_mono e h depth v oa ob h entry hk
    obtain ⟨entry', h', hd⟩ := this
    revert h' hchanged
    simp only [Engine.update_tt]
    split
    case isTrue hkeep =>
      intro hchanged h'
      exact absurd hk hchanged
    case isFalse hkeep =>
      intro _ _
      rw [hk] at hkeep
      simp only [decide_eq_true_eq] at hkeep
      omega
  · intro Z depth alpha beta e b k entry hk
    exact negamax_alphabeta_tt_mono Z depth alpha beta e b k entry hk

/-- Witness for C8: a table holding an entry of depth 1 under key 5 is
overwritten by an `update_tt` at depth 2 (so `1 ≤ 2`), and a depth-1
search from the empty board keeps some entry of depth at least 1 at key 5. -/
theorem C8_tt_depth_preferred_witness :
    (⟨1, 7, TTEntryBound.EXACT⟩ : TTEntry).depth ≤ 2
    ∧ ∃ entry',
        (Engine.negamax_alphabeta_tt demoZ 1 LOSS_EVAL WIN_EVAL
            ⟨fun k => if k = 5 then some ⟨1, 7, TTEntryBound.EXACT⟩ else none, 0, 0, 0⟩
            Board.empty).2.1.transposition_table 5
          = some entry'
        ∧ (⟨1, 7, TTEntryBound.EXACT⟩ : TTEntry).depth ≤ entry'.depth :=
  ⟨C8_tt_depth_preferred.1
      ⟨fun k => if k = 5 then some ⟨1, 7, TTEntryBound.EXACT⟩ else none, 0, 0, 0⟩
      5 2 0 0 0 ⟨1, 7, TTEntryBound.EXACT⟩ (by decide) (by decide),
    C8_tt_depth_preferred.2 demoZ 1 LOSS_EVAL WIN_EVAL
      ⟨fun k => if k = 5 then some ⟨1, 7, TTEntryBound.EXACT⟩ else none, 0, 0, 0⟩
      Board.empty 5 ⟨1, 7, TTEntryBound.EXACT⟩ (by decide)⟩

/-! ### Legality helpers -/

lemma two_pow_land (k m : Nat) : 2 ^ k &&& m = if m.testBit k then 2 ^ k else 0 := by
  apply Nat.eq_of_testBit_eq
  intro i
  rw [Nat.testBit_land, Nat.testBit_two_pow]
  by_cases h : k = i
  · subst h
    by_cases hm : m.testBit k <;> simp [hm]
  · by_cases hm : m.testBit k <;>
      simp [h, hm, Nat.testBit_two_pow, Nat.zero_testBit]

lemma legal_col_iff (b : Board) (c : Nat) :
    c ∈ b.get_legal_move_cols ↔ c < 7 ∧ b.all_pieces.testBit (7 * c + 5) = false := by
  simp only [Board.get_legal_move_cols, List.mem_filter, List.mem_range, NUM_COLS]
  constructor
  · rintro ⟨hc, htop⟩
    refine ⟨hc, ?_⟩
    rw [beq_iff_eq, TOP_MASKS_eq, two_pow_land] at htop
    by_cases hbit : b.all_pieces.testBit (7 * c + 5)
    · rw [if_pos hbit] at htop
      exact absurd htop (Nat.pos_iff_ne_zero.mp (Nat.pos_pow_of_pos _ (by norm_num)))
    · exact Bool.eq_false_iff.mpr hbit
  · rintro ⟨hc, hbit⟩
    refine ⟨hc, ?_⟩
    rw [beq_iff_eq, TOP_MASKS_eq, two_pow_land, hbit]
    simp

lemma legal_apply_ok (Z : Zobrist) (b : Board) (c : Nat)
    (h : c ∈ b.get_legal_move_cols) :
    ∃ b1, Board.apply_move Z (c : Int) b = Except.ok b1 := by
  obtain ⟨hc, hbit⟩ := (legal_col_iff b c).mp h
  simp only [Board.apply_move]
  split
  case isTrue hcond =>
    simp only [NUM_COLS, Nat.cast_ofNat, Bool.or_eq_true, decide_eq_true_eq] at hcond
    rcases hcond with h1 | h1
    · exact absurd h1 (not_lt.mpr (Int.natCast_nonneg c))
    · exact absurd (by exact_mod_cast h1 : 7 ≤ c) (by omega)
  case isFalse hcond =>
    split
    case isTrue hmm =>
      rw [beq_iff_eq] at hmm
      have h5 := (move_mask_zero_iff b ((c : Int)).toNat).mp hmm 5 (by norm_num)
      rw [Int.toNat_natCast] at h5
      rw [h5] at hbit
      cases hbit
    case isFalse hmm =>
      exact ⟨_, rfl⟩

lemma BOARD_MASK_testBit (i : Nat) :
    BOARD_MASK.testBit i = decide (i < 49 ∧ i % 7 < 6) := by
  rcases Nat.lt_or_ge i 49 with h | h
  · revert h
    revert i
    decide
  · rw [Nat.testBit_lt_two_pow
      (lt_of_lt_of_le (by decide : BOARD_MASK < 2 ^ 49)
        (Nat.pow_le_pow_right (by norm_num) h))]
    symm
    rw [decide_eq_false_iff_not]
    rintro ⟨h49, _⟩
    omega

lemma is_full_false_of_legal {b : Board} {c : Nat} (h : c ∈ b.get_legal_move_cols) :
    b.is_full = false := by
  obtain ⟨hc, hbit⟩ := (legal_col_iff b c).mp h
  by_contra hfull
  have hfull' : b.all_pieces &&& BOARD_MASK = BOARD_MASK := by
    have := Bool.not_eq_false (b.is_full) |>.mp hfull
    simpa [Board.is_full, beq_iff_eq] using this
  have hb : (b.all_pieces &&& BOARD_MASK).testBit (7 * c + 5) = BOARD_MASK.testBit (7 * c + 5) := by
    rw [hfull']
  rw [Nat.testBit_land, BOARD_MASK_testBit] at hb
  have hbm : decide (7 * c + 5 < 49 ∧ (7 * c + 5) % 7 < 6) = true := by
    rw [decide_eq_true_eq]
    omega
  rw [hbm, hbit] at hb
  simp at hb

/-! ### C6: the value returned on a win-in-one position -/

lemma negamaxGo_win (child : Engine → Board → Int × Engine × Board) (Z : Zobrist)
    (dp : Nat) (hchild : ∀ e b, (child e b).2.2 = b) (b : Board) :
    ∀ ms e value,
      (∀ c ∈ ms, c ∈ b.get_legal_move_cols) →
      (∃ c : Nat, c ∈ ms ∧ ∃ b', Board.apply_move Z (c : Int) b = Except.ok b'
          ∧ b'.last_move_won = true) →
      (negamaxGo child Z dp e b ms value).1 = WIN_EVAL - ((dp : Int) - 1) := by
  intro ms
  induction ms with
  | nil =>
    intro e value _ hex
    rcases hex with ⟨c, hc, _⟩
    exact absurd hc (List.not_mem_nil c)
  | cons c rest ih =>
    intro e value hms hex
    cases happly : Board.apply_move Z (c : Int) b with
    | error err =>
      obtain ⟨b1, hok⟩ := legal_apply_ok Z b c (hms c (List.mem_cons_self c rest))
      rw [hok] at happly
      cases happly
    | ok b1 =>
      by_cases hwin : b1.last_move_won = true
      · simp only [negamaxGo, happly, hwin, if_pos]
      · have hex' : ∃ c' : Nat, c' ∈ rest
            ∧ ∃ b', Board.apply_move Z (c' : Int) b = Except.ok b'
            ∧ b'.last_move_won = true := by
          rcases hex with ⟨c', hc', b', happly', hwin'⟩
          rcases List.mem_cons.mp hc' with rfl | hmem
          · rw [happly] at happly'
            injection happly' with hinj
            subst hinj
            exact absurd hwin' hwin
          · exact ⟨c', hmem, b', happly', hwin'⟩
        simp only [negamaxGo, happly, hwin, Bool.false_eq_true, if_neg,
          not_false_eq_true]
        rw [hchild e b1, unapply_of_apply_ok Z happly]
        exact ih _ _ (fun c' h => hms c' (List.mem_cons_of_mem c h)) hex'

/-- **C6 (amended).** In a position where the side to move has an
immediate winning move available (in particular a vertical win in one
move), where the opponent has not already won, plain `negamax` at any
depth ≥ 2 returns `WIN_EVAL - (depth - 1)` — not `WIN_EVAL - (depth - 2)`
as the claim states (see `C6_counterexample`; the alpha-beta variants can
even return a different, higher value on multi-threat positions, see the
C1 failing input). -/
theorem C6_amended_win_in_one (Z : Zobrist) (e : Engine) (b : Board) (depth : Nat)
    (hdepth : 2 ≤ depth) (hnotlost : b.last_move_won = false)
    (hwin : ∃ c : Nat, c ∈ b.get_legal_move_cols
      ∧ ∃ b', Board.apply_move Z (c : Int) b = Except.ok b'
      ∧ b'.last_move_won = true) :
    (Engine.negamax Z depth e b).1 = WIN_EVAL - ((depth : Int) - 1) := by
  obtain ⟨d, rfl⟩ : ∃ d, depth = d + 1 := ⟨depth - 1, by omega⟩
  have hfull : b.is_full = false := by
    rcases hwin with ⟨c, hc, _⟩
    exact is_full_false_of_legal hc
  simp only [Engine.negamax]
  rw [if_neg (by simp [hnotlost]), if_neg (by simp [hfull])]
  rcases hwin with ⟨c, hc, hb'⟩
  exact negamaxGo_win _ Z (d + 1) (fun e' b' => negamax_board Z d e' b') b
    b.get_legal_move_cols _ LOSS_EVAL (fun c' h => h) ⟨c, hc, hb'⟩

/-! ### Concrete values of the searches on the C1/C5/C6 boards -/

set_option maxHeartbeats 4000000 in
/-- **C1.** The claimed agreement of the three search variants fails on
the code: on the reachable board `c1Board` at depth 3, with the default
windows and the empty transposition table (one of the table states
"produced the same way"), plain `negamax` returns `9998 = WIN_EVAL - 2`
(its unconditional early return on the immediate win at column 5), while
`negamax_alphabeta` and `negamax_alphabeta_tt` both return `10000` (the
quiet move at column 0 forces a win two plies later, which the inverted
depth adjustment scores higher, and the alpha-beta cutoff keeps that
value).  The code's own comment claims the early return "can't do better
than winning at this depth", which its scoring contradicts. -/
theorem C1_search_variants_disagree :
    playSeq demoZ Board.empty c1Moves = some c1Board
    ∧ (Engine.negamax demoZ 3 Engine.new c1Board).1 = 9998
    ∧ (Engine.negamax_alphabeta demoZ 3 LOSS_EVAL WIN_EVAL Engine.new c1Board).1 = 10000
    ∧ (Engine.negamax_alphabeta_tt demoZ 3 LOSS_EVAL WIN_EVAL Engine.new c1Board).1
        = 10000
    ∧ (9998 : Int) ≠ 10000 := by
  refine ⟨by decide, by decide, by decide, by decide, by decide⟩

set_option maxHeartbeats 4000000 in
/-- **C5.** The terminal-score depth adjustment is inverted relative to
the claim: the same immediate win scores `WIN_EVAL - 2` when found with 3
plies of search remaining but `WIN_EVAL` when found with 1 remaining (the
claim asks for strictly *higher* at depth 3), and the same immediate loss
scores `LOSS_EVAL + 3` at depth 3 but `LOSS_EVAL + 1` at depth 1 (the
claim asks for strictly *lower* at depth 3). -/
theorem C5_depth_adjustment_reversed :
    playSeq demoZ Board.empty [0, 1, 0, 1, 0, 1] = some winBoard
    ∧ playSeq demoZ Board.empty [0, 1, 0, 1, 0, 1, 2, 1] = some lossBoard
    ∧ (Engine.negamax demoZ 3 Engine.new winBoard).1 = WIN_EVAL - 2
    ∧ (Engine.negamax demoZ 1 Engine.new winBoard).1 = WIN_EVAL
    ∧ WIN_EVAL - 2 < WIN_EVAL
    ∧ (Engine.negamax demoZ 3 Engine.new lossBoard).1 = LOSS_EVAL + 3
    ∧ (Engine.negamax demoZ 1 Engine.new lossBoard).1 = LOSS_EVAL + 1
    ∧ LOSS_EVAL + 1 < LOSS_EVAL + 3 := by
  refine ⟨by decide, by decide, by decide, by decide, by decide, by decide, by decide,
    by decide⟩

set_option maxHeartbeats 4000000 in
/-- Counterexample to **C6** as stated: `winBoard` is reachable, the side
to move has a vertical win in one move (column 0), yet all three searches
at depth 2 return `WIN_EVAL - 1 = 9999`, not `WIN_EVAL - (2 - 2) = 10000`
as the claim demands. -/
theorem C6_counterexample :
    playSeq demoZ Board.empty [0, 1, 0, 1, 0, 1] = some winBoard
    ∧ (Board.apply_move demoZ 0 winBoard).map Board.last_move_won = Except.ok true
    ∧ (Engine.negamax demoZ 2 Engine.new winBoard).1 = WIN_EVAL - 1
    ∧ (Engine.negamax_alphabeta demoZ 2 LOSS_EVAL WIN_EVAL Engine.new winBoard).1
        = WIN_EVAL - 1
    ∧ (Engine.negamax_alphabeta_tt demoZ 2 LOSS_EVAL WIN_EVAL Engine.new winBoard).1
        = WIN_EVAL - 1
    ∧ (Engine.negamax demoZ 2 Engine.new winBoard).1 ≠ WIN_EVAL - (2 - 2) := by
  refine ⟨by decide, by decide, by decide, by decide, by decide, by decide⟩

/-- Witness for the amended C6 at a concrete input: on `winBoard` at
depth 2, plain negamax returns `WIN_EVAL - (2 - 1)`. -/
theorem C6_amended_win_in_one_witness :
    (Engine.negamax demoZ 2 Engine.new winBoard).1 = WIN_EVAL - ((2 : Int) - 1) :=
  C6_amended_win_in_one demoZ Engine.new winBoard 2 (by norm_num) (by decide)
    ⟨0, by decide,
      (Board.apply_move demoZ 0 winBoard).toOption.getD Board.empty, by decide,
      by decide⟩

/-! ### C4: has_four detects exactly the four canonical orientations -/

lemma quad_iff (m s t2 t3 : Nat) (h2 : t2 = 2 * s) (h3 : t3 = 3 * s) :
    ((m &&& (m >>> s)) &&& ((m &&& (m >>> s)) >>> t2) ≠ 0)
      ↔ ∃ i, m.testBit i = true ∧ m.testBit (i + s) = true
          ∧ m.testBit (i + t2) = true ∧ m.testBit (i + t3) = true := by
  subst h2
  subst h3
  rw [Nat.ne_zero_iff_exists_testBit]
  constructor
  · rintro ⟨i, hi⟩
    simp only [Nat.testBit_land, Nat.testBit_shiftRight, Bool.and_eq_true] at hi
    refine ⟨i, hi.1.1, ?_, ?_, ?_⟩
    · rw [Nat.add_comm i s]; exact hi.1.2
    · rw [Nat.add_comm i (2 * s)]; exact hi.2.1
    · rw [show i + 3 * s = s + (2 * s + i) from by ring]; exact hi.2.2
  · rintro ⟨i, h1, hb2, hb3, hb4⟩
    refine ⟨i, ?_⟩
    simp only [Nat.testBit_land, Nat.testBit_shiftRight, Bool.and_eq_true]
    refine ⟨⟨h1, ?_⟩, ?_, ?_⟩
    · rw [Nat.add_comm s i]; exact hb2
    · rw [Nat.add_comm (2 * s) i]; exact hb3
    · rw [show s + (2 * s + i) = i + 3 * s from by ring]; exact hb4

lemma has_four_cases (m : Nat) :
    Board.has_four m = true ↔
      ((m &&& (m >>> 1)) &&& ((m &&& (m >>> 1)) >>> 2) ≠ 0)
      ∨ ((m &&& (m >>> 7)) &&& ((m &&& (m >>> 7)) >>> 14) ≠ 0)
      ∨ ((m &&& (m >>> 6)) &&& ((m &&& (m >>> 6)) >>> 12) ≠ 0)
      ∨ ((m &&& (m >>> 8)) &&& ((m &&& (m >>> 8)) >>> 16) ≠ 0) := by
  have hS : STRIDE = 7 := rfl
  simp only [Board.has_four, hS]
  norm_num

lemma playable_of_land {m : Nat} (hm : m &&& BOARD_MASK = m) {i : Nat}
    (h : m.testBit i = true) : i < 49 ∧ i % 7 < 6 := by
  have h2 : (m &&& BOARD_MASK).testBit i = true := by rw [hm]; exact h
  rw [Nat.testBit_land, BOARD_MASK_testBit, Bool.and_eq_true, decide_eq_true_eq] at h2
  exact h2.2

lemma bridge_vertical : ∀ i < 49,
    (i % 7 < 6 ∧ (i + 1) % 7 < 6 ∧ (i + 2) % 7 < 6 ∧ (i + 3) % 7 < 6) →
    ∃ c < 7, ∃ r < 3, i = 7 * c + r := by
  decide

lemma bridge_horizontal : ∀ i, i < 49 → i % 7 < 6 → i + 21 < 49 →
    ∃ c < 4, ∃ r < 6, i = 7 * c + r := by
  decide

lemma bridge_diag_up : ∀ i < 49,
    (i % 7 < 6 ∧ (i + 8) % 7 < 6 ∧ (i + 16) % 7 < 6 ∧ (i + 24) % 7 < 6
      ∧ i + 24 < 49) →
    ∃ c < 4, ∃ r < 3, i = 7 * c + r := by
  decide

lemma bridge_diag_down : ∀ i < 49,
    (i % 7 < 6 ∧ (i + 6) % 7 < 6 ∧ (i + 12) % 7 < 6 ∧ (i + 18) % 7 < 6
      ∧ i + 18 < 49) →
    ∃ c < 4, ∃ r < 3, i = 7 * c + (r + 3) := by
  decide

/-- **C4.** For every 49-bit mask whose per-column sentinel bits are zero
(`m &&& BOARD_MASK = m`), `has_four m` is true exactly when the mask
contains four consecutive set cells in one of the four canonical
orientations (bit strides 1, 7, 8 and 6); in particular it is false for
every mask containing only 3-in-a-row or 3-with-gap patterns, independent
of any other bits on the board. -/
theorem C4_has_four_correct (m : Nat) (hm : m &&& BOARD_MASK = m) :
    Board.has_four m = true ↔ hasFourSpec m := by
  rw [has_four_cases]
  constructor
  · rintro (h | h | h | h)
    · obtain ⟨i, hb1, hb2, hb3, hb4⟩ :=
        (quad_iff m 1 2 3 (by norm_num) (by norm_num)).mp h
      have p1 := playable_of_land hm hb1
      have p2 := playable_of_land hm hb2
      have p3 := playable_of_land hm hb3
      have p4 := playable_of_land hm hb4
      obtain ⟨c, hc, r, hr, rfl⟩ := bridge_vertical i p1.1 ⟨p1.2, p2.2, p3.2, p4.2⟩
      exact Or.inl ⟨c, hc, r, hr, hb1, hb2, hb3, hb4⟩
    · obtain ⟨i, hb1, hb2, hb3, hb4⟩ :=
        (quad_iff m 7 14 21 (by norm_num) (by norm_num)).mp h
      have p1 := playable_of_land hm hb1
      have p4 := playable_of_land hm hb4
      obtain ⟨c, hc, r, hr, rfl⟩ := bridge_horizontal i p1.1 p1.2 p4.1
      refine Or.inr (Or.inl ⟨c, hc, r, hr, hb1, ?_, ?_, ?_⟩)
      · rw [show 7 * (c + 1) + r = 7 * c + r + 7 from by ring]; exact hb2
      · rw [show 7 * (c + 2) + r = 7 * c + r + 14 from by ring]; exact hb3
      · rw [show 7 * (c + 3) + r = 7 * c + r + 21 from by ring]; exact hb4
    · obtain ⟨i, hb1, hb2, hb3, hb4⟩ :=
        (quad_iff m 6 12 18 (by norm_num) (by norm_num)).mp h
      have p1 := playable_of_land hm hb1
      have p2 := playable_of_land hm hb2
      have p3 := playable_of_land hm hb3
      have p4 := playable_of_land hm hb4
      obtain ⟨c, hc, r, hr, rfl⟩ := bridge_diag_down i p1.1 ⟨p1.2, p2.2, p3.2, p4.2, p4.1⟩
      refine Or.inr (Or.inr (Or.inr ⟨c, hc, r, hr, hb1, ?_, ?_, ?_⟩))
      · rw [show 7 * (c + 1) + (r + 2) = 7 * c + (r + 3) + 6 from by ring]; exact hb2
      · rw [show 7 * (c + 2) + (r + 1) = 7 * c + (r + 3) + 12 from by ring]; exact hb3
      · rw [show 7 * (c + 3) + r = 7 * c + (r + 3) + 18 from by ring]; exact hb4
    · obtain ⟨i, hb1, hb2, hb3, hb4⟩ :=
        (quad_iff m 8 16 24 (by norm_num) (by norm_num)).mp h
      have p1 := playable_of_land hm hb1
      have p2 := playable_of_land hm hb2
      have p3 := playable_of_land hm hb3
      have p4 := playable_of_land hm hb4
      obtain ⟨c, hc, r, hr, rfl⟩ := bridge_diag_up i p1.1 ⟨p1.2, p2.2, p3.2, p4.2, p4.1⟩
      refine Or.inr (Or.inr (Or.inl ⟨c, hc, r, hr, hb1, ?_, ?_, ?_⟩))
      · rw [show 7 * (c + 1) + (r + 1) = 7 * c + r + 8 from by ring]; exact hb2
      · rw [show 7 * (c + 2) + (r + 2) = 7 * c + r + 16 from by ring]; exact hb3
      · rw [show 7 * (c + 3) + (r + 3) = 7 * c + r + 24 from by ring]; exact hb4
  · rintro (⟨c, hc, r, hr, hb1, hb2, hb3, hb4⟩ | ⟨c, hc, r, hr, hb1, hb2, hb3, hb4⟩ |
      ⟨c, hc, r, hr, hb1, hb2, hb3, hb4⟩ | ⟨c, hc, r, hr, hb1, hb2, hb3, hb4⟩)
    · exact Or.inl ((quad_iff m 1 2 3 (by norm_num) (by norm_num)).mpr
        ⟨7 * c + r, hb1, hb2, hb3, hb4⟩)
    · refine Or.inr (Or.inl ((quad_iff m 7 14 21 (by norm_num) (by norm_num)).mpr
        ⟨7 * c + r, hb1, ?_, ?_, ?_⟩))
      · rw [show 7 * c + r + 7 = 7 * (c + 1) + r from by ring]; exact hb2
      · rw [show 7 * c + r + 14 = 7 * (c + 2) + r from by ring]; exact hb3
      · rw [show 7 * c + r + 21 = 7 * (c + 3) + r from by ring]; exact hb4
    · refine Or.inr (Or.inr (Or.inr ((quad_iff m 8 16 24 (by norm_num) (by norm_num)).mpr
        ⟨7 * c + r, hb1, ?_, ?_, ?_⟩)))
      · rw [show 7 * c + r + 8 = 7 * (c + 1) + (r + 1) from by ring]; exact hb2
      · rw [show 7 * c + r + 16 = 7 * (c + 2) + (r + 2) from by ring]; exact hb3
      · rw [show 7 * c + r + 24 = 7 * (c + 3) + (r + 3) from by ring]; exact hb4
    · refine Or.inr (Or.inr (Or.inl ((quad_iff m 6 12 18 (by norm_num) (by norm_num)).mpr
        ⟨7 * c + (r + 3), hb1, ?_, ?_, ?_⟩)))
      · rw [show 7 * c + (r + 3) + 6 = 7 * (c + 1) + (r + 2) from by ring]; exact hb2
      · rw [show 7 * c + (r + 3) + 12 = 7 * (c + 2) + (r + 1) from by ring]; exact hb3
      · rw [show 7 * c + (r + 3) + 18 = 7 * (c + 3) + r from by ring]; exact hb4

/-- Witness for C4 at a concrete mask: the column-3 vertical four at rows
2..5 (the spec's concrete scenario) is detected. -/
theorem C4_has_four_correct_witness :
    Board.has_four ((60 : Nat) <<< 21) = true :=
  (C4_has_four_correct ((60 : Nat) <<< 21) (by decide)).mpr
    (Or.inl ⟨3, by decide, 2, by decide, by decide, by decide, by decide, by decide⟩)

/-! ### Reachability invariant: contiguous column stacks -/

lemma colsFrom_lt (f : Nat → Nat) (hf : ∀ j, f j ≤ 6) :
    ∀ k c, colsFrom f k c < 2 ^ (7 * k) := by
  intro k
  induction k with
  | zero => intro c; simp [colsFrom]
  | succ k ih =>
    intro c
    have h1 : 2 ^ f c - 1 ≤ 63 := by
      have : 2 ^ f c ≤ 2 ^ 6 := Nat.pow_le_pow_right (by norm_num) (hf c)
      omega
    have h2 : colsFrom f k (c + 1) < 2 ^ (7 * k) := ih (c + 1)
    have h3 : 2 ^ (7 * (k + 1)) = 128 * 2 ^ (7 * k) := by
      rw [show 7 * (k + 1) = 7 + 7 * k from by ring, pow_add]
      norm_num
    calc (2 ^ f c - 1) + 128 * colsFrom f k (c + 1)
        ≤ 63 + 128 * colsFrom f k (c + 1) := by omega
      _ < 128 * (colsFrom f k (c + 1) + 1) := by omega
      _ ≤ 128 * 2 ^ (7 * k) := by
          have : colsFrom f k (c + 1) + 1 ≤ 2 ^ (7 * k) := h2
          exact Nat.mul_le_mul_left 128 this
      _ = 2 ^ (7 * (k + 1)) := h3.symm

lemma colsFrom_split (f : Nat → Nat) (k2 : Nat) :
    ∀ k1 c, colsFrom f (k1 + k2) c
      = colsFrom f k1 c + 2 ^ (7 * k1) * colsFrom f k2 (c + k1) := by
  intro k1
  induction k1 with
  | zero => intro c; simp [colsFrom]
  | succ k ih =>
    intro c
    rw [show k + 1 + k2 = (k + k2) + 1 from by ring]
    rw [colsFrom, colsFrom, ih (c + 1)]
    rw [show c + (k + 1) = c + 1 + k from by ring,
      show 7 * (k + 1) = 7 * k + 7 from by ring, pow_add]
    ring

lemma colsFrom_congr (f g : Nat → Nat) :
    ∀ k c, (∀ j, c ≤ j → j < c + k → f j = g j) →
      colsFrom f k c = colsFrom g k c := by
  intro k
  induction k with
  | zero => intro c _; rfl
  | succ k ih =>
    intro c h
    rw [colsFrom, colsFrom, h c (le_refl c) (by omega),
      ih (c + 1) (fun j h1 h2 => h j (by omega) (by omega))]

lemma testBit_add_mul_two_pow (L H i j : Nat) (hL : L < 2 ^ i) :
    (L + 2 ^ i * H).testBit j = if j < i then L.testBit j else H.testBit (j - i) := by
  split
  case isTrue hj =>
    have hmod : (L + 2 ^ i * H) % 2 ^ i = L := by
      rw [Nat.add_mul_mod_self_left, Nat.mod_eq_of_lt hL]
    have := Nat.testBit_mod_two_pow (L + 2 ^ i * H) i j
    rw [hmod, decide_eq_true hj, Bool.true_and] at this
    exact this.symm
  case isFalse hj =>
    have hdiv : (L + 2 ^ i * H) >>> i = H := by
      rw [Nat.shiftRight_eq_div_pow, Nat.add_mul_div_left _ _
        (Nat.pos_pow_of_pos i (by norm_num)), Nat.div_eq_of_lt hL, Nat.zero_add]
    conv_rhs => rw [← hdiv]
    rw [Nat.testBit_shiftRight, show i + (j - i) = j from by omega]

lemma colsFrom_testBit (f : Nat → Nat) (hf : ∀ j, f j ≤ 6) :
    ∀ k c i, (colsFrom f k c).testBit i
      = decide (i / 7 < k ∧ i % 7 < f (c + i / 7)) := by
  intro k
  induction k with
  | zero =>
    intro c i
    simp [colsFrom, Nat.zero_testBit]
  | succ k ih =>
    intro c i
    have hlow : 2 ^ f c - 1 < 2 ^ 7 := by
      have : 2 ^ f c ≤ 2 ^ 6 := Nat.pow_le_pow_right (by norm_num) (hf c)
      norm_num
      omega
    rw [colsFrom, show (128 : Nat) * colsFrom f k (c + 1)
        = 2 ^ 7 * colsFrom f k (c + 1) from by norm_num,
      testBit_add_mul_two_pow _ _ _ _ hlow]
    split
    case isTrue hi =>
      rw [Nat.testBit_two_pow_sub_one]
      have h1 : i / 7 = 0 := by omega
      have h2 : i % 7 = i := by omega
      rw [h1, h2]
      simp only [Nat.add_zero]
      exact decide_eq_decide.mpr (by omega)
    case isFalse hi =>
      rw [ih (c + 1) (i - 7)]
      have h1 : (i - 7) / 7 = i / 7 - 1 := by omega
      have h2 : (i - 7) % 7 = i % 7 := by omega
      have h3 : i / 7 ≥ 1 := by omega
      rw [h1, h2]
      have h4 : c + 1 + (i / 7 - 1) = c + i / 7 := by omega
      rw [h4]
      exact decide_eq_decide.mpr (by omega)

lemma mask_formula (x c : Nat) :
    (x + BOTTOM_MASKS c) &&& COLUMN_MASKS c
      = ((x >>> (7 * c) + 1) % 64) <<< (7 * c) := by
  rw [BOTTOM_MASKS_eq, land_column_mask, shiftRight_add_pow]

lemma colsFrom_decomp (f : Nat → Nat) (c : Nat) (hc : c < 7) :
    colsFrom f 7 0 = colsFrom f c 0 + 2 ^ (7 * c) * colsFrom f (7 - c) c := by
  have h := colsFrom_split f (7 - c) c 0
  rw [show c + (7 - c) = 7 from by omega] at h
  rw [Nat.zero_add] at h
  exact h

lemma colsFrom_shift (f : Nat → Nat) (hf : ∀ j, f j ≤ 6) (c : Nat) (hc : c < 7) :
    colsFrom f 7 0 >>> (7 * c) = colsFrom f (7 - c) c := by
  rw [colsFrom_decomp f c hc, Nat.shiftRight_eq_div_pow,
    Nat.add_mul_div_left _ _ (Nat.pos_pow_of_pos (7 * c) (by norm_num)),
    Nat.div_eq_of_lt (colsFrom_lt f hf c 0), Nat.zero_add]

/-- On a contiguous-columns board, the carry trick yields exactly the bit
of the landing square when the column is not full, and `0` when it is. -/
lemma move_mask_on_cols (f : Nat → Nat) (hf : ∀ j, f j ≤ 6) (c : Nat) (hc : c < 7) :
    (colsFrom f 7 0 + BOTTOM_MASKS c) &&& COLUMN_MASKS c
      = if f c ≤ 5 then 2 ^ (7 * c + f c) else 0 := by
  rw [mask_formula, colsFrom_shift f hf c hc]
  have hunfold : colsFrom f (7 - c) c
      = (2 ^ f c - 1) + 128 * colsFrom f (6 - c) (c + 1) := by
    rw [show 7 - c = (6 - c) + 1 from by omega, colsFrom]
  rw [hunfold]
  have h1 : 1 ≤ 2 ^ f c := Nat.one_le_two_pow
  have hq : (2 ^ f c - 1 + 128 * colsFrom f (6 - c) (c + 1) + 1) % 64
      = 2 ^ f c % 64 := by
    rw [show 2 ^ f c - 1 + 128 * colsFrom f (6 - c) (c + 1) + 1
        = 2 ^ f c + 64 * (2 * colsFrom f (6 - c) (c + 1)) from by omega,
      Nat.add_mul_mod_self_left]
  rw [hq]
  by_cases hfc : f c ≤ 5
  · rw [if_pos hfc]
    have hlt : 2 ^ f c < 64 := by
      have : 2 ^ f c ≤ 2 ^ 5 := Nat.pow_le_pow_right (by norm_num) hfc
      omega
    rw [Nat.mod_eq_of_lt hlt, Nat.shiftLeft_eq, pow_add]
    ring
  · have hfc6 : f c = 6 := by have := hf c; omega
    rw [if_neg hfc, hfc6]
    norm_num

/-- Dropping a piece onto column `cn` turns the profile `f` into the
profile with `f cn` bumped by one: at the bit level this is the XOR of
the landing square. -/
lemma colsFrom_update (f : Nat → Nat) (hf : ∀ j, f j ≤ 6) (cn : Nat) (hcn : cn < 7)
    (hfc : f cn ≤ 5) :
    colsFrom f 7 0 ^^^ 2 ^ (7 * cn + f cn)
      = colsFrom (fun j => if j = cn then f cn + 1 else f j) 7 0 := by
  have hf' : ∀ j, (if j = cn then f cn + 1 else f j) ≤ 6 := by
    intro j
    by_cases h : j = cn
    · rw [if_pos h]; omega
    · rw [if_neg h]; exact hf j
  apply Nat.eq_of_testBit_eq
  intro j
  rw [Nat.testBit_xor, Nat.testBit_two_pow,
    colsFrom_testBit f hf 7 0 j, colsFrom_testBit _ hf' 7 0 j]
  simp only [Nat.zero_add]
  by_cases hij : 7 * cn + f cn = j
  · rw [decide_eq_true hij, Bool.xor_true]
    have hdiv : j / 7 = cn := by omega
    have hmod : j % 7 = f cn := by omega
    rw [hdiv, hmod, if_pos (rfl : cn = cn), ← decide_not]
    exact decide_eq_decide.mpr (by omega)
  · rw [decide_eq_false hij, Bool.xor_false]
    by_cases hdiv : j / 7 = cn
    · rw [hdiv, if_pos (rfl : cn = cn)]
      exact decide_eq_decide.mpr (by omega)
    · rw [if_neg hdiv]

/-! ### The hash as a function of the two masks -/

lemma testBit_xor_two_pow (m i a : Nat) :
    (m ^^^ 2 ^ i).testBit a = ((m.testBit a).xor (decide (i = a))) := by
  rw [Nat.testBit_xor, Nat.testBit_two_pow]

lemma foldr_hashStep_congr (Z : Zobrist) (j m i : Nat) :
    ∀ L : List Nat, i ∉ L →
      L.foldr (hashStep Z j (m ^^^ 2 ^ i)) 0 = L.foldr (hashStep Z j m) 0 := by
  intro L
  induction L with
  | nil => intro _; rfl
  | cons a L ih =>
    intro hmem
    rw [List.foldr_cons, List.foldr_cons,
      ih (fun h => hmem (List.mem_cons_of_mem a h))]
    unfold hashStep
    rw [testBit_xor_two_pow,
      decide_eq_false (by
        intro h
        exact hmem (by rw [h]; exact List.mem_cons_self a L)),
      Bool.xor_false]

lemma foldr_hashStep_fresh (Z : Zobrist) (j m i : Nat) :
    ∀ L : List Nat, L.Nodup → i ∈ L → m.testBit i = false →
      L.foldr (hashStep Z j (m ^^^ 2 ^ i)) 0
        = Z.square j (sqIdx i) ^^^ L.foldr (hashStep Z j m) 0 := by
  intro L
  induction L with
  | nil => intro _ hmem _; exact absurd hmem (List.not_mem_nil i)
  | cons a L ih =>
    intro hnd hmem hbit
    rw [List.foldr_cons, List.foldr_cons]
    by_cases hia : i = a
    · subst hia
      rw [foldr_hashStep_congr Z j m i L (List.nodup_cons.mp hnd).1]
      simp [hashStep, testBit_xor_two_pow, hbit]
    · have hmem' : i ∈ L := by
        rcases List.mem_cons.mp hmem with h | h
        · exact absurd h hia
        · exact h
      rw [ih (List.nodup_cons.mp hnd).2 hmem' hbit]
      unfold hashStep
      rw [testBit_xor_two_pow, decide_eq_false hia, Bool.xor_false, xor_left_comm]

lemma foldr_countStep_congr (m i : Nat) :
    ∀ L : List Nat, i ∉ L →
      L.foldr (countStep (m ^^^ 2 ^ i)) 0 = L.foldr (countStep m) 0 := by
  intro L
  induction L with
  | nil => intro _; rfl
  | cons a L ih =>
    intro hmem
    rw [List.foldr_cons, List.foldr_cons,
      ih (fun h => hmem (List.mem_cons_of_mem a h))]
    unfold countStep
    rw [testBit_xor_two_pow,
      decide_eq_false (by
        intro h
        exact hmem (by rw [h]; exact List.mem_cons_self a L)),
      Bool.xor_false]

lemma foldr_countStep_fresh (m i : Nat) :
    ∀ L : List Nat, L.Nodup → i ∈ L → m.testBit i = false →
      L.foldr (countStep (m ^^^ 2 ^ i)) 0 = 1 + L.foldr (countStep m) 0 := by
  intro L
  induction L with
  | nil => intro _ hmem _; exact absurd hmem (List.not_mem_nil i)
  | cons a L ih =>
    intro hnd hmem hbit
    rw [List.foldr_cons, List.foldr_cons]
    by_cases hia : i = a
    · subst hia
      rw [foldr_countStep_congr m i L (List.nodup_cons.mp hnd).1]
      simp [countStep, testBit_xor_two_pow, hbit]
    · have hmem' : i ∈ L := by
        rcases List.mem_cons.mp hmem with h | h
        · exact absurd h hia
        · exact h
      rw [ih (List.nodup_cons.mp hnd).2 hmem' hbit]
      unfold countStep
      rw [testBit_xor_two_pow, decide_eq_false hia, Bool.xor_false]
      omega

lemma maskHash_fresh (Z : Zobrist) (j m i : Nat) (hi : i < 49)
    (hbit : m.testBit i = false) :
    maskHash Z j (m ^^^ 2 ^ i) = Z.square j (sqIdx i) ^^^ maskHash Z j m :=
  foldr_hashStep_fresh Z j m i (List.range 49) (List.nodup_range 49)
    (List.mem_range.mpr hi) hbit

lemma countBits49_fresh (m i : Nat) (hi : i < 49) (hbit : m.testBit i = false) :
    countBits49 (m ^^^ 2 ^ i) = countBits49 m + 1 := by
  unfold countBits49
  rw [foldr_countStep_fresh m i (List.range 49) (List.nodup_range 49)
    (List.mem_range.mpr hi) hbit]
  omega

/-- One apply-move step of the mask-level hash function. -/
lemma hashOfMasks_step (Z : Zobrist) (p a i : Nat) (hi : i < 49)
    (hpa : p.testBit i = false) (ha : a.testBit i = false) :
    hashOfMasks Z (p ^^^ a) (a ^^^ 2 ^ i)
      = hashOfMasks Z p a ^^^ Z.side ^^^ Z.square (countBits49 a % 2) (sqIdx i) := by
  unfold hashOfMasks
  rw [countBits49_fresh a i hi ha]
  have hxor : (a ^^^ 2 ^ i) ^^^ (p ^^^ a) = p ^^^ 2 ^ i := by
    simp [Nat.xor_assoc, Nat.xor_comm, xor_left_comm, Nat.xor_cancel_left,
      Nat.xor_cancel_right]
  rw [hxor, Nat.xor_comm p a]
  rcases Nat.mod_two_eq_zero_or_one (countBits49 a) with h | h
  · rw [h, show (countBits49 a + 1) % 2 = 1 from by omega,
      show (countBits49 a + 1 + 1) % 2 = 0 from by omega,
      maskHash_fresh Z 0 p i hi hpa]
    simp [Nat.xor_assoc, Nat.xor_comm, xor_left_comm, Nat.xor_cancel_left,
      Nat.xor_cancel_right]
  · rw [h, show (countBits49 a + 1) % 2 = 0 from by omega,
      show (countBits49 a + 1 + 1) % 2 = 1 from by omega,
      maskHash_fresh Z 1 p i hi hpa]
    simp [Nat.xor_assoc, Nat.xor_comm, xor_left_comm, Nat.xor_cancel_left,
      Nat.xor_cancel_right]

/-! ### The board invariant and C3 / C10 -/

lemma log2fuel_pow : ∀ i fuel, 2 ^ i ≤ fuel → log2fuel fuel (2 ^ i) = i := by
  intro i
  induction i with
  | zero =>
    intro fuel h
    cases fuel with
    | zero => simp at h
    | succ k => rw [log2fuel]; norm_num
  | succ i ih =>
    intro fuel h
    have hp : 1 ≤ 2 ^ i := Nat.one_le_two_pow
    have hdouble : 2 ^ (i + 1) = 2 * 2 ^ i := by rw [pow_succ]; ring
    cases fuel with
    | zero => omega
    | succ k =>
      rw [log2fuel, if_neg (by omega), show 2 ^ (i + 1) / 2 = 2 ^ i from by omega,
        ih k (by omega)]

lemma ilog2_two_pow (i : Nat) : ilog2 (2 ^ i) = i :=
  log2fuel_pow i (2 ^ i) (le_refl _)

lemma MOVE_MASK_TO_SQUARE_IX_pow (i : Nat) :
    MOVE_MASK_TO_SQUARE_IX (2 ^ i) = sqIdx i := by
  unfold MOVE_MASK_TO_SQUARE_IX sqIdx
  rw [ilog2_two_pow]
  rfl

lemma foldr_hashStep_zero (Z : Zobrist) (j : Nat) :
    ∀ L : List Nat, L.foldr (hashStep Z j 0) 0 = 0 := by
  intro L
  induction L with
  | nil => rfl
  | cons a L ih => rw [List.foldr_cons, ih]; simp [hashStep, Nat.zero_testBit]

lemma boardInv_empty (Z : Zobrist) : BoardInv Z Board.empty := by
  refine ⟨fun _ => 0, fun j => by norm_num, rfl, ?_, rfl, ?_⟩
  · intro i hi
    simp [Board.empty, Nat.zero_testBit] at hi
  · show (0 : Nat) = hashOfMasks Z 0 0
    unfold hashOfMasks maskHash
    rw [foldr_hashStep_zero, show (0 : Nat) ^^^ 0 = 0 from rfl, foldr_hashStep_zero]
    simp [countBits49]
    rfl

lemma boardInv_step (Z : Zobrist) {b b' : Board} {c : Int}
    (hb : BoardInv Z b) (h : Board.apply_move Z c b = Except.ok b') :
    BoardInv Z b' := by
  obtain ⟨f, hf, hall, hsub, hlen, hhash⟩ := hb
  simp only [Board.apply_move] at h
  split at h
  · exact absurd h (by simp)
  case isFalse hcond =>
    split at h
    · exact absurd h (by simp)
    case isFalse hmm =>
      simp only [NUM_COLS, Nat.cast_ofNat, Bool.or_eq_true, decide_eq_true_eq] at hcond
      push_neg at hcond
      obtain ⟨hc0, hc7⟩ := hcond
      set cn := c.toNat with hcndef
      have hcn7 : cn < 7 := by omega
      rw [beq_iff_eq] at hmm
      have hmaskfull : (b.all_pieces + BOTTOM_MASKS cn) &&& COLUMN_MASKS cn
          = if f cn ≤ 5 then 2 ^ (7 * cn + f cn) else 0 := by
        rw [hall]
        exact move_mask_on_cols f hf cn hcn7
      have hfc : f cn ≤ 5 := by
        by_contra hfc
        rw [hmaskfull, if_neg hfc] at hmm
        exact hmm rfl
      rw [if_pos hfc] at hmaskfull
      have hi49 : 7 * cn + f cn < 49 := by omega
      have hai : b.all_pieces.testBit (7 * cn + f cn) = false := by
        rw [hall, colsFrom_testBit f hf 7 0]
        simp only [Nat.zero_add]
        have h1 : (7 * cn + f cn) / 7 = cn := by omega
        have h2 : (7 * cn + f cn) % 7 = f cn := by omega
        rw [h1, h2]
        simp
      have hpi : b.player_board.testBit (7 * cn + f cn) = false := by
        cases hp' : b.player_board.testBit (7 * cn + f cn) with
        | false => rfl
        | true =>
          have := hsub _ hp'
          rw [hai] at this
          cases this
      injection h with h
      subst h
      refine ⟨fun j => if j = cn then f cn + 1 else f j, ?_, ?_, ?_, ?_, ?_⟩
      · intro j
        show (if j = cn then f cn + 1 else f j) ≤ 6
        by_cases hj : j = cn
        · rw [if_pos hj]; omega
        · rw [if_neg hj]; exact hf j
      · show b.all_pieces ^^^ _ = _
        rw [hmaskfull, hall]
        exact colsFrom_update f hf cn hcn7 hfc
      · intro k hk
        show (b.all_pieces ^^^ _).testBit k = true
        rw [Nat.testBit_xor] at hk
        cases hp' : b.player_board.testBit k with
        | true =>
          rw [hp', hsub k hp'] at hk
          simp at hk
        | false =>
          rw [hp', Bool.false_xor] at hk
          have hik : ¬(7 * cn + f cn = k) := by
            intro hik
            rw [← hik] at hk
            rw [hai] at hk
            cases hk
          rw [hmaskfull, testBit_xor_two_pow, hk, decide_eq_false hik, Bool.xor_false]
      · show _ + 1 = countBits49 (b.all_pieces ^^^ _)
        rw [hmaskfull, countBits49_fresh _ _ hi49 hai, hlen]
      · show b.hash ^^^ Z.side ^^^ _ = hashOfMasks Z (b.player_board ^^^ b.all_pieces)
          (b.all_pieces ^^^ _)
        rw [hmaskfull, hashOfMasks_step Z _ _ _ hi49 hpi hai, hhash,
          MOVE_MASK_TO_SQUARE_IX_pow, Nat.and_one_is_mod, hlen]

lemma boardInv_playSeq (Z : Zobrist) :
    ∀ (ms : List Int) (b0 b : Board),
      BoardInv Z b0 → playSeq Z b0 ms = some b → BoardInv Z b := by
  intro ms
  induction ms with
  | nil =>
    intro b0 b h0 hp
    simp only [playSeq, Option.some.injEq] at hp
    rw [← hp]
    exact h0
  | cons c ms ih =>
    intro b0 b h0 hp
    cases happ : Board.apply_move Z c b0 with
    | error e =>
      simp only [playSeq, happ] at hp
      cases hp
    | ok b1 =>
      simp only [playSeq, happ] at hp
      exact ih b1 b (boardInv_step Z h0 happ) hp

lemma boardInv_of_reachable (Z : Zobrist) (b : Board) (h : Reachable Z b) :
    BoardInv Z b := by
  obtain ⟨ms, hms⟩ := h
  exact boardInv_playSeq Z ms Board.empty b (boardInv_empty Z) hms

/-- **C3.** On reachable boards the Zobrist hash is a function of the
final `(player_board, all_pieces)` masks alone: any two sequences of
legal moves from the empty board ending in the same masks produce the
same `hash` (the masks fix the piece count and hence the side-to-move
parity and the parity at which each piece was placed). -/
theorem C3_hash_path_independence (Z : Zobrist) (b1 b2 : Board)
    (h1 : Reachable Z b1) (h2 : Reachable Z b2)
    (hp : b1.player_board = b2.player_board)
    (ha : b1.all_pieces = b2.all_pieces) :
    b1.hash = b2.hash := by
  obtain ⟨f1, _, _, _, _, hh1⟩ := boardInv_of_reachable Z b1 h1
  obtain ⟨f2, _, _, _, _, hh2⟩ := boardInv_of_reachable Z b2 h2
  rw [hh1, hh2, hp, ha]

/-- Witness for C3: the orders [0,1,2,3] and [2,3,0,1] fill the same four
cells for the same players, and indeed give equal hashes. -/
theorem C3_hash_path_independence_witness :
    ((playSeq demoZ Board.empty [0, 1, 2, 3]).getD Board.empty).hash
      = ((playSeq demoZ Board.empty [2, 3, 0, 1]).getD Board.empty).hash :=
  C3_hash_path_independence demoZ _ _ ⟨[0, 1, 2, 3], by decide⟩
    ⟨[2, 3, 0, 1], by decide⟩ (by decide) (by decide)

/-- **C10.** On every reachable board, `get_legal_move_cols` is empty
exactly when `is_full` holds: because columns fill bottom-up without
gaps, the top cell of every column is occupied iff all 42 cells are. -/
theorem C10_no_legal_iff_full (Z : Zobrist) (b : Board) (h : Reachable Z b) :
    b.get_legal_move_cols = [] ↔ b.is_full = true := by
  obtain ⟨f, hf, hall, _, _, _⟩ := boardInv_of_reachable Z b h
  constructor
  · intro hleg
    have hforall : ∀ c, c < 7 → f c = 6 := by
      intro c hc
      by_cases htop : b.all_pieces.testBit (7 * c + 5) = true
      · rw [hall, colsFrom_testBit f hf 7 0] at htop
        simp only [Nat.zero_add] at htop
        have h1 : (7 * c + 5) / 7 = c := by omega
        have h2 : (7 * c + 5) % 7 = 5 := by omega
        rw [h1, h2, decide_eq_true_eq] at htop
        have := hf c
        omega
      · have hcin : c ∈ b.get_legal_move_cols :=
          (legal_col_iff b c).mpr ⟨hc, Bool.eq_false_iff.mpr htop⟩
        rw [hleg] at hcin
        exact absurd hcin (List.not_mem_nil c)
    have hallbm : b.all_pieces = BOARD_MASK := by
      rw [hall, colsFrom_congr f (fun _ => 6) 7 0 (fun j _ hj2 => hforall j (by omega))]
      rfl
    simp only [Board.is_full, hallbm]
    rfl
  · intro hfull
    rw [List.eq_nil_iff_forall_not_mem]
    intro c hcin
    rw [is_full_false_of_legal hcin] at hfull
    cases hfull

/-- Witness for C10 at a concrete reachable board: on the empty board the
legal-move list is not empty and the board is not full, so the two sides
of the equivalence agree. -/
theorem C10_no_legal_iff_full_witness :
    (Board.empty.get_legal_move_cols = [] ↔ Board.empty.is_full = true) :=
  C10_no_legal_iff_full demoZ Board.empty ⟨[], rfl⟩
